import Mathlib

/-!
Verification of the HyVR object-based sedimentary simulator (sim.py, grid.py).

The Lean definitions below are shallow embeddings of the corresponding Python
functions.  Floating point numbers are idealised as real numbers (for the
trigonometric geometry) or as rationals (for grid arithmetic); numpy arrays
over the voxel grid are modelled as functions from an abstract voxel index
type V; numpy boolean-mask assignment is modelled by the function
maskedWrite; random draws (random.choice, np.random.uniform, ...) are passed
in as explicit parameters.
-/

namespace HyVR

/-- np.radians: degrees to radians conversion used by scale_rotate and
ellipsoid_gradient in sim.py. -/
noncomputable def radians (d : ℝ) : ℝ := d * Real.pi / 180

/-- scale_rotate, sim.py lines 723-730: the scaled and rotated squared radius
of a point (x, y, z) relative to an ellipsoid with semi-axes a, b, c rotated
by alpha degrees about the vertical axis.  Transcribed term by term from the
numpy expression. -/
noncomputable def scale_rotate_R2 (x y z alpha a b c : ℝ) : ℝ :=
  (x ^ 2 * Real.cos (radians alpha) ^ 2 +
    2 * x * y * Real.cos (radians alpha) * Real.sin (radians alpha) +
    y ^ 2 * Real.sin (radians alpha) ^ 2) / a ^ 2 +
  (x ^ 2 * Real.sin (radians alpha) ^ 2 -
    2 * x * y * Real.cos (radians alpha) * Real.sin (radians alpha) +
    y ^ 2 * Real.cos (radians alpha) ^ 2) / b ^ 2 +
  z ^ 2 / c ^ 2

/-- scale_rotate, sim.py lines 704-737: returns the membership proposition
(mask1 AND mask2, i.e. R2 <= 1 and z <= 0) together with the squared radius
field R2. -/
noncomputable def scale_rotate (x y z alpha a b c : ℝ) : Prop × ℝ :=
  (scale_rotate_R2 x y z alpha a b c ≤ 1 ∧ z ≤ 0, scale_rotate_R2 x y z alpha a b c)

/-- Specification-side squared radius: the quadratic form obtained by rotating
(x, y) by alpha about the vertical axis, scaling by the semi-axes a and b in
the plane, plus z^2/c^2.  Stated from the specification text, to be compared
with scale_rotate_R2. -/
noncomputable def spec_rotated_R2 (x y z alpha a b c : ℝ) : ℝ :=
  (x * Real.cos (radians alpha) + y * Real.sin (radians alpha)) ^ 2 / a ^ 2 +
  (x * Real.sin (radians alpha) - y * Real.cos (radians alpha)) ^ 2 / b ^ 2 +
  z ^ 2 / c ^ 2

/-- thetaAR2 coefficient b1 (sim.py line 1092). -/
noncomputable def ferguson_b1 (k h : ℝ) : ℝ :=
  2 * Real.exp (-k * h) * Real.cos (k * Real.arcsin h)

/-- thetaAR2 coefficient b2 (sim.py line 1093). -/
noncomputable def ferguson_b2 (k h : ℝ) : ℝ := -Real.exp (-2 * k * h)

/-- thetaAR2, sim.py lines 1084-1094: one step of the Ferguson (1976) AR(2)
direction-angle model. -/
noncomputable def thetaAR2 (t1 t2 k h eps : ℝ) : ℝ :=
  eps + ferguson_b1 k h * t1 + ferguson_b2 k h * t2

/-- Python int() applied to a rational: truncation toward zero. -/
def pyInt (q : ℚ) : ℤ := if q < 0 then -⌊-q⌋ else ⌊q⌋

/-- prob_choose, sim.py lines 1359-1362: the flat replicated candidate list
ae_list, built by appending int(probs[i] * 1000) copies of choices[i] for
each index i.  The Python loop indexes probs by the positions of choices;
for lists of equal length this is the zip below. -/
def prob_choose_list {α : Type} (choices : List α) (probs : List ℚ) : List α :=
  (choices.zip probs).flatMap fun cp => List.replicate (pyInt (cp.2 * 1000)).toNat cp.1

/-- prob_choose, sim.py lines 1359-1365: random.choice(ae_list) is modelled
as indexing the flat list with a uniformly drawn natural number r reduced
modulo the list length; on the empty list the result is none (random.choice
raises IndexError there). -/
def prob_choose {α : Type} (choices : List α) (probs : List ℚ) (r : ℕ) : Option α :=
  let ae_list := prob_choose_list choices probs
  ae_list[r % ae_list.length]?

/-- np.unique: the sorted list of distinct values of the input. -/
def np_unique (l : List ℤ) : List ℤ := l.dedup.insertionSort (· ≤ ·)

/-- reindex, sim.py lines 1373-1377: the dict built from
zip(np.unique(inray), np.arange(...)) maps each value to its position in the
sorted distinct-value list; np.vectorize applies it elementwise and 1 is
added to the resulting array. -/
def reindex (l : List ℤ) : List ℤ :=
  l.map fun v => ((np_unique l).indexOf v : ℤ) + 1

/-- facies, sim.py lines 252-262, material-field component: props is built
from the current mat array (line 254) BEFORE the name mat is rebound to
reindex(mat) (line 260); reindex returns a fresh array, so the returned
props still hold the pre-reindex field.  The pair below is (mat as stored in
props, the reindexed array that the local rebinding produces). -/
def facies_tail (mat : List ℤ) : List ℤ × List ℤ :=
  (mat, reindex mat)

/-- The material field that facies actually returns inside props. -/
def facies_returned_mat (mat : List ℤ) : List ℤ := (facies_tail mat).1

/-- The three ways facies (sim.py lines 116-159) can build the architectural
element lookup table. -/
inductive AeBranch where
  | table : AeBranch
  | uniform : AeBranch
  | walk : AeBranch
deriving DecidableEq

/-- facies, sim.py lines 116-131: branch selection for the architectural
element lookup table.  The elif guard is len(sequences[..]) < 0, compared as
an integer exactly as Python does. -/
def facies_ae_branch (has_ae_table : Bool) (len_ll_ae_z_mean : ℕ) : AeBranch :=
  if has_ae_table then AeBranch.table
  else if (len_ll_ae_z_mean : ℤ) < 0 then AeBranch.uniform
  else AeBranch.walk

/-- Effective numpy slice endpoint: negative indices count from the end and
everything is clamped into [0, n]. -/
def npEff (n : ℕ) (i : ℤ) : ℕ :=
  if i < 0 then ((n : ℤ) + i).toNat else min i.toNat n

/-- Length of the numpy slice a[lo:hi] of an axis of size n. -/
def npSliceLen (n : ℕ) (lo hi : ℤ) : ℕ := npEff n hi - npEff n lo

/-- The six nesting bounds ix1, ix2, iy1, iy2, iz1, iz2 of heterogeneity
(sim.py lines 309-314). -/
structure NestBounds where
  ix1 : ℤ
  ix2 : ℤ
  iy1 : ℤ
  iy2 : ℤ
  iz1 : ℤ
  iz2 : ℤ
deriving DecidableEq

/-- heterogeneity, sim.py lines 309-314: lower bounds are the minima of the
group indices, upper bounds add the shape of the cropped sub-field. -/
def nest_bounds (ix1 iy1 iz1 sx sy sz : ℕ) : NestBounds :=
  ⟨(ix1 : ℤ), (ix1 : ℤ) + sx, (iy1 : ℤ), (iy1 : ℤ) + sy, (iz1 : ℤ), (iz1 : ℤ) + sz⟩

/-- Shape of the target slice temp_k[ix1:ix2, iy1:iy2, iz1:iz2] of the
full-size (nx, ny, nz) array. -/
def slice_shape (nx ny nz : ℕ) (b : NestBounds) : ℕ × ℕ × ℕ :=
  (npSliceLen nx b.ix1 b.ix2, npSliceLen ny b.iy1 b.iy2, npSliceLen nz b.iz1 b.iz2)

/-- heterogeneity, sim.py lines 316-319: if the slice shape mismatches the
sub-field shape, both z bounds are moved down one cell. -/
def nest_fix (nx ny nz : ℕ) (b : NestBounds) (sx sy sz : ℕ) : NestBounds :=
  if slice_shape nx ny nz b ≠ (sx, sy, sz) then
    { b with iz1 := b.iz1 - 1, iz2 := b.iz2 - 1 }
  else b

/-- numpy assignment broadcast rule for one axis: the source extent must
equal the target extent or be 1. -/
def bc_ok (tgt src : ℕ) : Bool := src == tgt || src == 1

/-- heterogeneity, sim.py lines 309-322: whether the insertion
temp_k[ix1:ix2, iy1:iy2, iz1:iz2] = temp_k_small completes without raising,
after the mismatch correction of lines 316-319 has been applied. -/
def nest_insert_ok (nx ny nz ix1 iy1 iz1 sx sy sz : ℕ) : Bool :=
  let b := nest_fix nx ny nz (nest_bounds ix1 iy1 iz1 sx sy sz) sx sy sz
  let sh := slice_shape nx ny nz b
  bc_ok sh.1 sx && bc_ok sh.2.1 sy && bc_ok sh.2.2 sz

/-- numpy masked assignment tgt[m] = src: where the mask holds the source
value is taken, elsewhere the previous value is kept. -/
noncomputable def maskedWrite {V α : Type} (m : V → Prop) (src tgt : V → α) : V → α :=
  fun v => @ite α (m v) (Classical.propDecidable (m v)) (src v) (tgt v)

/-- The four voxel fields written by an object generator. -/
structure PaintResult (V : Type) where
  mat : V → ℤ
  fac : V → ℤ
  azim : V → ℝ
  dip : V → ℝ

/-- gen_trough, sim.py lines 601-602: the selection mask of one ellipsoid,
the scale_rotate membership intersected with ae_arr <= ae[0]. -/
noncomputable def trough_select {V : Type} (xc yc zc : V → ℝ) (ae_arr : V → ℤ) (ae0 : ℤ)
    (xnow ynow znow alpha a b c : ℝ) : V → Prop :=
  fun v =>
    (scale_rotate (xc v - xnow) (yc v - ynow) (zc v - znow) alpha a b c).1 ∧
      ae_arr v ≤ ae0

/-- gen_trough, sim.py lines 587-624 and 686-694, flat-layer branch for one
ellipsoid instance: the random draws (facies choice fac_now, material counter
cnt, azimuth angnow, uniform dip draw dipdraw) are passed in as parameters,
and each of the four fields is written through the selection mask. -/
noncomputable def gen_trough_paint {V : Type} (xc yc zc : V → ℝ) (ae_arr : V → ℤ) (ae0 : ℤ)
    (xnow ynow znow alpha a b c : ℝ) (fac_now cnt : ℤ) (angnow dipdraw : ℝ)
    (mat fac : V → ℤ) (azim dip : V → ℝ) : PaintResult V :=
  let m := trough_select xc yc zc ae_arr ae0 xnow ynow znow alpha a b c
  { mat := maskedWrite m (fun _ => cnt) mat
    fac := maskedWrite m (fun _ => fac_now) fac
    azim := maskedWrite m (fun _ => angnow) azim
    dip := maskedWrite m (fun _ => dipdraw) dip }

/-- np.arctan2 on real numbers, via the complex argument. -/
noncomputable def np_arctan2 (y x : ℝ) : ℝ := Complex.arg ⟨x, y⟩

/-- np.round on a real number: round half to even. -/
noncomputable def np_round_real (x : ℝ) : ℝ :=
  @ite ℝ (x - (⌊x⌋ : ℝ) < 1 / 2) (Classical.propDecidable _) ((⌊x⌋ : ℤ) : ℝ)
    (@ite ℝ ((1 : ℝ) / 2 < x - (⌊x⌋ : ℝ)) (Classical.propDecidable _) ((⌊x⌋ : ℝ) + 1)
      (if ⌊x⌋ % 2 = 0 then ((⌊x⌋ : ℤ) : ℝ) else (⌊x⌋ : ℝ) + 1))

/-- gen_channel, sim.py line 940: the in-channel mask, an elliptical
cross-section in the squared column distance D and the vertical index z3
(named zi here), with iznow standing for mg.idx_z(znow). -/
def channel_in_channel {V : Type} (zi : V → ℕ) (D : V → ℝ) (iznow : ℤ)
    (dz z_ch_width z_ch_depth : ℝ) : V → Prop :=
  fun v =>
    (D v) ^ 2 ≤
      z_ch_width ^ 2 / 4 -
        (((iznow - (zi v : ℤ) : ℤ) : ℝ) * dz * z_ch_width / (z_ch_depth * 2)) ^ 2

/-- gen_channel, sim.py lines 940-943: chan_mask, the conjunction of the
geometric membership, the finite-velocity condition and ae_array <= seq[0]. -/
def channel_mask {V : Type} (zi : V → ℕ) (ae_array : V → ℤ) (seq0 : ℤ) (D : V → ℝ)
    (finiteV : V → Prop) (iznow : ℤ) (dz z_ch_width z_ch_depth : ℝ) : V → Prop :=
  fun v =>
    channel_in_channel zi D iznow dz z_ch_width z_ch_depth v ∧ finiteV v ∧
      ae_array v ≤ seq0

/-- gen_channel, sim.py line 956: the azimuth field derived from the local
velocity, np.round((np.arctan2(vx, vy) - pi/2) * 180/pi). -/
noncomputable def channel_azim2d {V : Type} (vx vy : V → ℝ) : V → ℝ :=
  fun v => np_round_real ((np_arctan2 (vx v) (vy v) - Real.pi / 2) * 180 / Real.pi)

/-- gen_channel, sim.py lines 936-961, main paint of one channel at one
vertical step, without the optional lag override: fac, mat, azim and dip are
written through chan_mask; D, vx, vy are the column distance and velocity
fields computed from the centreline, and finiteV models the condition
~np.isnan(vx_znow) (everywhere true in exact arithmetic since sumW > 0). -/
noncomputable def gen_channel_paint {V : Type} (zi : V → ℕ) (ae_array : V → ℤ) (seq0 : ℤ)
    (D vx vy : V → ℝ) (finiteV : V → Prop) (iznow : ℤ) (dz z_ch_width z_ch_depth : ℝ)
    (fd : V → ℤ) (dv : ℝ) (cnt : ℤ)
    (mat fac : V → ℤ) (azim dip : V → ℝ) : PaintResult V :=
  let m := channel_mask zi ae_array seq0 D finiteV iznow dz z_ch_width z_ch_depth
  { mat := maskedWrite m (fun _ => cnt) mat
    fac := maskedWrite m fd fac
    azim := maskedWrite m (channel_azim2d vx vy) azim
    dip := maskedWrite m (fun _ => dv) dip }

/-- np.around on a rational, as used by Grid.idx_z: round half to even. -/
def np_around (q : ℚ) : ℤ :=
  if q - ⌊q⌋ < 1 / 2 then ⌊q⌋
  else if 1 / 2 < q - ⌊q⌋ then ⌊q⌋ + 1
  else if ⌊q⌋ % 2 = 0 then ⌊q⌋ else ⌊q⌋ + 1

/-- Grid.idx_z, grid.py lines 427-438: int(np.around((zval - oz) / dz)). -/
def idx_z (oz dz zval : ℚ) : ℤ := np_around ((zval - oz) / dz)

/-- gen_sheet, sim.py lines 1133-1139, massive bedding without dip sets: all
four fields are written through the mask ae_array == ae_i[0]. -/
noncomputable def gen_sheet_massive_paint {V : Type} (ae_array : V → ℤ) (ae0 : ℤ)
    (fac_choice cnt : ℤ) (mat fac : V → ℤ) (azim dip : V → ℝ) : PaintResult V :=
  let m : V → Prop := fun v => ae_array v = ae0
  { mat := maskedWrite m (fun _ => cnt) mat
    fac := maskedWrite m (fun _ => fac_choice) fac
    azim := maskedWrite m (fun _ => 0) azim
    dip := maskedWrite m (fun _ => 0) dip }

/-- gen_sheet, sim.py lines 1153-1157 and 1176-1181, one lens of the
lens-stack branch without dip sets: z_bottom = mg.idx_z(znow),
z_top = min(mg.idx_z(znow + lens_thickness), nz), and the writes
fac[:, :, z_range], mat[:, :, z_range], azim[:, :, z_range],
dip[:, :, z_range] cover every voxel whose vertical index lies in
range(z_bottom, z_top); ae0 and ae_array are in scope in the source but are
not consulted by this branch. -/
noncomputable def gen_sheet_lens_nodip_paint {V : Type} (zi : V → ℕ) (nz : ℕ) (oz dz : ℚ)
    (ae0 : ℤ) (ae_array : V → ℤ) (znow lens_th : ℚ) (fac_choice cnt : ℤ)
    (mat fac : V → ℤ) (azim dip : V → ℝ) : PaintResult V :=
  let z_bottom : ℤ := idx_z oz dz znow
  let z_top : ℤ := min (idx_z oz dz (znow + lens_th)) (nz : ℤ)
  let z_range : V → Prop := fun v => z_bottom ≤ (zi v : ℤ) ∧ (zi v : ℤ) < z_top
  { mat := maskedWrite z_range (fun _ => cnt) mat
    fac := maskedWrite z_range (fun _ => fac_choice) fac
    azim := maskedWrite z_range (fun _ => 0) azim
    dip := maskedWrite z_range (fun _ => 0) dip }

/-- rot_vertical: rotation about the vertical axis, from the specification
text of the conductivity-tensor assembly. -/
noncomputable def rot_vertical (t : ℝ) : Matrix (Fin 3) (Fin 3) ℝ :=
  !![Real.cos t, Real.sin t, 0;
     -Real.sin t, Real.cos t, 0;
     0, 0, 1]

/-- rot_secondary: rotation about the secondary horizontal axis, from the
specification text of the conductivity-tensor assembly. -/
noncomputable def rot_secondary (t : ℝ) : Matrix (Fin 3) (Fin 3) ℝ :=
  !![Real.cos t, 0, Real.sin t;
     0, 1, 0;
     -Real.sin t, 0, Real.cos t]

/-- heterogeneity, sim.py lines 412-443: the conductivity tensor of one
voxel.  azim and dip arrive in degrees and are multiplied by pi/180 (lines
413-414); R is the product of the two literal rotation arrays of lines
434-439; the result is k_iso * R.dot(diag(1, 1, 1/anirat).dot(R.T))
(line 441). -/
noncomputable def heterogeneity_ktensor (k_iso azim dip anirat : ℝ) :
    Matrix (Fin 3) (Fin 3) ℝ :=
  let azr := azim * Real.pi / 180
  let dir := dip * Real.pi / 180
  let R :=
    !![Real.cos azr, Real.sin azr, 0;
       -Real.sin azr, Real.cos azr, 0;
       0, 0, 1] *
    !![Real.cos dir, 0, Real.sin dir;
       0, 1, 0;
       -Real.sin dir, 0, Real.cos dir]
  k_iso • (R * (Matrix.diagonal ![1, 1, 1 / anirat] * R.transpose))

/-- The per-voxel tensor field assembled by the nditer loop of heterogeneity
(sim.py lines 430-443). -/
noncomputable def heterogeneity_ktensors {V : Type} (k_iso azim dip anirat : V → ℝ) :
    V → Matrix (Fin 3) (Fin 3) ℝ :=
  fun v => heterogeneity_ktensor (k_iso v) (azim v) (dip v) (anirat v)

end HyVR

namespace HyVR

theorem maskedWrite_pos {V α : Type} {m : V → Prop} (src tgt : V → α) {v : V}
    (h : m v) : maskedWrite m src tgt v = src v := by
  unfold maskedWrite
  exact if_pos h

theorem maskedWrite_neg {V α : Type} {m : V → Prop} (src tgt : V → α) {v : V}
    (h : ¬ m v) : maskedWrite m src tgt v = tgt v := by
  unfold maskedWrite
  exact if_neg h

theorem scale_rotate_R2_eq_rotated (x y z alpha a b c : ℝ) :
    scale_rotate_R2 x y z alpha a b c = spec_rotated_R2 x y z alpha a b c := by
  unfold scale_rotate_R2 spec_rotated_R2
  ring

/-- Claim C4: for every offset (x, y, z) from a candidate ellipsoid centre,
every rotation angle alpha and positive semi-axes a, b, c, scale_rotate marks
the point as a member exactly when the rotated-and-scaled squared radius
satisfies R2 <= 1 and additionally z <= 0. -/
theorem scale_rotate_membership (x y z alpha a b c : ℝ)
    (ha : 0 < a) (hb : 0 < b) (hc : 0 < c) :
    (scale_rotate x y z alpha a b c).1 ↔
      (spec_rotated_R2 x y z alpha a b c ≤ 1 ∧ z ≤ 0) := by
  unfold scale_rotate
  rw [scale_rotate_R2_eq_rotated]

theorem scale_rotate_membership_witness :
    (0 : ℝ) < 1 ∧
      ((scale_rotate 0 0 0 0 1 1 1).1 ↔
        (spec_rotated_R2 0 0 0 0 1 1 1 ≤ 1 ∧ (0 : ℝ) ≤ 0)) :=
  ⟨by norm_num,
    scale_rotate_membership 0 0 0 0 1 1 1 (by norm_num) (by norm_num) (by norm_num)⟩

theorem radians_add (u v : ℝ) : radians (u + v) = radians u + radians v := by
  unfold radians; ring

/-- Claim C5: rotating the query point by phi about the vertical axis and the
ellipsoid rotation from alpha to alpha + phi leaves the scale_rotate
membership result unchanged. -/
theorem scale_rotate_rotation_equivariant (x y z alpha phi a b c : ℝ) :
    ((scale_rotate (x * Real.cos (radians phi) - y * Real.sin (radians phi))
        (x * Real.sin (radians phi) + y * Real.cos (radians phi)) z
        (alpha + phi) a b c).1 ↔
      (scale_rotate x y z alpha a b c).1) := by
  have hpy : Real.sin (radians phi) ^ 2 + Real.cos (radians phi) ^ 2 = 1 :=
    Real.sin_sq_add_cos_sq _
  have hR2 :
      scale_rotate_R2 (x * Real.cos (radians phi) - y * Real.sin (radians phi))
        (x * Real.sin (radians phi) + y * Real.cos (radians phi)) z
        (alpha + phi) a b c = scale_rotate_R2 x y z alpha a b c := by
    rw [scale_rotate_R2_eq_rotated, scale_rotate_R2_eq_rotated]
    unfold spec_rotated_R2
    rw [radians_add, Real.cos_add, Real.sin_add]
    linear_combination
      ((Real.sin (radians phi) ^ 2 + Real.cos (radians phi) ^ 2 + 1) *
        ((x * Real.cos (radians alpha) + y * Real.sin (radians alpha)) ^ 2 / a ^ 2 +
          (x * Real.sin (radians alpha) - y * Real.cos (radians alpha)) ^ 2 / b ^ 2)) * hpy
  unfold scale_rotate
  rw [hR2]

/-- Claim C9: the AR(2) step computes eps + b1 t1 + b2 t2 with the Ferguson
coefficients, and for k h > 0 and 0 < h <= 1 these satisfy abs b1 < 2 and
b2 strictly between -1 and 0. -/
theorem thetaAR2_coefficients (k h : ℝ) (hkh : 0 < k * h) (hh0 : 0 < h) (hh1 : h ≤ 1) :
    |ferguson_b1 k h| < 2 ∧ (-1 < ferguson_b2 k h ∧ ferguson_b2 k h < 0) ∧
      ∀ t1 t2 eps : ℝ, thetaAR2 t1 t2 k h eps =
        eps + ferguson_b1 k h * t1 + ferguson_b2 k h * t2 := by
  have hexp1 : Real.exp (-k * h) < 1 := by
    rw [← Real.exp_zero]
    exact Real.exp_lt_exp.mpr (by nlinarith)
  have hexp0 : 0 < Real.exp (-k * h) := Real.exp_pos _
  have hexp1' : Real.exp (-2 * k * h) < 1 := by
    rw [← Real.exp_zero]
    exact Real.exp_lt_exp.mpr (by nlinarith)
  have hexp0' : 0 < Real.exp (-2 * k * h) := Real.exp_pos _
  refine ⟨?_, ⟨by unfold ferguson_b2; linarith, by unfold ferguson_b2; linarith⟩,
    fun t1 t2 eps => rfl⟩
  have habs : |ferguson_b1 k h| ≤ 2 * Real.exp (-k * h) := by
    unfold ferguson_b1
    rw [abs_mul, abs_mul, abs_two, abs_of_pos hexp0]
    have := Real.abs_cos_le_one (k * Real.arcsin h)
    nlinarith
  linarith [habs, (by nlinarith : 2 * Real.exp (-k * h) < 2)]

theorem thetaAR2_coefficients_witness :
    ((0 : ℝ) < 1 * 1 ∧ (0 : ℝ) < 1 ∧ (1 : ℝ) ≤ 1) ∧
      (|ferguson_b1 1 1| < 2 ∧ (-1 < ferguson_b2 1 1 ∧ ferguson_b2 1 1 < 0) ∧
        ∀ t1 t2 eps : ℝ, thetaAR2 t1 t2 1 1 eps =
          eps + ferguson_b1 1 1 * t1 + ferguson_b2 1 1 * t2) :=
  ⟨⟨by norm_num, by norm_num, le_refl 1⟩,
    thetaAR2_coefficients 1 1 (by norm_num) (by norm_num) (le_refl 1)⟩

/-- Claim C3: for every voxel, the assembled conductivity tensor equals
k_iso times R * diag(1, 1, 1/anirat) * R.transpose, where R composes the
rotation about the vertical axis by the azimuth with the rotation about the
secondary horizontal axis by the dip, both angles converted from degrees to
radians. -/
theorem heterogeneity_ktensor_spec :
    ∀ (V : Type) (k_iso azim dip anirat : V → ℝ) (v : V),
      heterogeneity_ktensors k_iso azim dip anirat v =
        k_iso v •
          (rot_vertical (radians (azim v)) * rot_secondary (radians (dip v)) *
            Matrix.diagonal ![1, 1, 1 / anirat v] *
            (rot_vertical (radians (azim v)) * rot_secondary (radians (dip v))).transpose) := by
  intro V k a d r v
  simp only [heterogeneity_ktensors, heterogeneity_ktensor, rot_vertical, rot_secondary,
    radians, Matrix.mul_assoc]

/-- Claim C6: the Uniform Model branch of facies is guarded by the condition
len(ll_ae_z_mean) < 0, which no list length satisfies, so an empty
architectural-element catalog never produces the single uniform unit; the
builder instead takes the sampling-walk branch, where prob_choose on the
empty catalog yields no element. -/
theorem facies_uniform_branch_unreachable :
    (∀ (t : Bool) (n : ℕ), facies_ae_branch t n ≠ AeBranch.uniform) ∧
      facies_ae_branch false 0 = AeBranch.walk ∧
      ∀ r : ℕ, prob_choose ([] : List ℤ) ([] : List ℚ) r = none := by
  refine ⟨?_, by decide, ?_⟩
  · intro t n
    unfold facies_ae_branch
    cases t with
    | true => simp
    | false =>
      rw [if_neg (by simp)]
      rw [if_neg (by omega : ¬ ((n : ℤ) < 0))]
      simp
  · intro r
    simp [prob_choose, prob_choose_list]

/-- Claim C2: facies builds props from the material array before the name mat
is rebound to reindex(mat), so the returned field is the raw one.  At the
concrete material field [5, 5] the returned field is still [5, 5], whereas
the renumbered field is [1, 1]: the returned values are not the dense range
starting at 1. -/
theorem facies_returns_unreindexed_mat :
    facies_returned_mat [5, 5] = [5, 5] ∧ reindex [5, 5] = [1, 1] ∧
      facies_returned_mat [5, 5] ≠ reindex [5, 5] := by
  refine ⟨rfl, by decide, by decide⟩

theorem npEff_nonneg_le (n : ℕ) (i : ℤ) (h0 : 0 ≤ i) (hn : i ≤ (n : ℤ)) :
    npEff n i = i.toNat := by
  unfold npEff
  rw [if_neg (by omega)]
  omega

theorem npSliceLen_exact (n lo len : ℕ) (h : lo + len ≤ n) :
    npSliceLen n (lo : ℤ) ((lo : ℤ) + (len : ℤ)) = len := by
  unfold npSliceLen
  rw [npEff_nonneg_le n ((lo : ℤ) + (len : ℤ)) (by omega) (by omega),
    npEff_nonneg_le n (lo : ℤ) (by omega) (by omega)]
  omega

/-- Claim C8 counterexample: a cropped sub-field of shape (5, 4, 4) aimed at
the slice [0:5, 0:4, 0:4] of a (4, 4, 4) array mismatches the target slice,
the z bounds are shifted down one cell, and the insertion still fails: a
shape mismatch is not always repaired by the z shift. -/
theorem nest_fix_x_mismatch_fails :
    slice_shape 4 4 4 (nest_bounds 0 0 0 5 4 4) ≠ (5, 4, 4) ∧
      nest_insert_ok 4 4 4 0 0 0 5 4 4 = false := by
  decide

/-- Claim C8 (amended): when the shape mismatch is exactly a one-cell
overshoot in z, with the x and y extents in range and iz1 at least 1, the
correction moves the z bounds down by one cell and the insertion then
completes without raising; other mismatches are not repaired (see the
counterexample). -/
theorem nest_fix_one_cell_z_overshoot (nx ny nz ix1 iy1 iz1 sx sy sz : ℕ)
    (hx : ix1 + sx ≤ nx) (hy : iy1 + sy ≤ ny) (hz : iz1 + sz = nz + 1)
    (hz1 : 1 ≤ iz1) (hsz : 1 ≤ sz) :
    slice_shape nx ny nz (nest_bounds ix1 iy1 iz1 sx sy sz) ≠ (sx, sy, sz) ∧
      nest_fix nx ny nz (nest_bounds ix1 iy1 iz1 sx sy sz) sx sy sz =
        { ix1 := (ix1 : ℤ), ix2 := (ix1 : ℤ) + (sx : ℤ), iy1 := (iy1 : ℤ),
          iy2 := (iy1 : ℤ) + (sy : ℤ), iz1 := (iz1 : ℤ) - 1,
          iz2 := (iz1 : ℤ) + (sz : ℤ) - 1 } ∧
      nest_insert_ok nx ny nz ix1 iy1 iz1 sx sy sz = true := by
  have hxlen : npSliceLen nx (ix1 : ℤ) ((ix1 : ℤ) + (sx : ℤ)) = sx :=
    npSliceLen_exact nx ix1 sx hx
  have hylen : npSliceLen ny (iy1 : ℤ) ((iy1 : ℤ) + (sy : ℤ)) = sy :=
    npSliceLen_exact ny iy1 sy hy
  have hzlen : npSliceLen nz (iz1 : ℤ) ((iz1 : ℤ) + (sz : ℤ)) = sz - 1 := by
    unfold npSliceLen
    have h1 : npEff nz ((iz1 : ℤ) + (sz : ℤ)) = nz := by
      unfold npEff
      rw [if_neg (by omega)]
      omega
    have h2 : npEff nz (iz1 : ℤ) = iz1 :=
      npEff_nonneg_le nz (iz1 : ℤ) (by omega) (by omega)
    rw [h1, h2]
    omega
  have hmem : slice_shape nx ny nz (nest_bounds ix1 iy1 iz1 sx sy sz) ≠ (sx, sy, sz) := by
    unfold slice_shape nest_bounds
    simp only [hxlen, hylen, hzlen]
    intro hcontra
    have := congrArg (fun p => p.2.2) hcontra
    simp at this
    omega
  have hfix : nest_fix nx ny nz (nest_bounds ix1 iy1 iz1 sx sy sz) sx sy sz =
      { ix1 := (ix1 : ℤ), ix2 := (ix1 : ℤ) + (sx : ℤ), iy1 := (iy1 : ℤ),
        iy2 := (iy1 : ℤ) + (sy : ℤ), iz1 := (iz1 : ℤ) - 1,
        iz2 := (iz1 : ℤ) + (sz : ℤ) - 1 } := by
    unfold nest_fix
    rw [if_pos hmem]
    simp [nest_bounds]
  refine ⟨hmem, hfix, ?_⟩
  unfold nest_insert_ok
  rw [hfix]
  have hzlen2 : npSliceLen nz ((iz1 : ℤ) - 1) ((iz1 : ℤ) + (sz : ℤ) - 1) = sz := by
    unfold npSliceLen
    rw [npEff_nonneg_le nz ((iz1 : ℤ) + (sz : ℤ) - 1) (by omega) (by omega),
      npEff_nonneg_le nz ((iz1 : ℤ) - 1) (by omega) (by omega)]
    omega
  unfold slice_shape
  simp only [hxlen, hylen, hzlen2]
  simp [bc_ok]

theorem pcl_nil {α : Type} (ps : List ℚ) : prob_choose_list ([] : List α) ps = [] := by
  simp [prob_choose_list]

theorem pcl_cons {α : Type} (c : α) (cs : List α) (p : ℚ) (ps : List ℚ) :
    prob_choose_list (c :: cs) (p :: ps) =
      List.replicate (pyInt (p * 1000)).toNat c ++ prob_choose_list cs ps := by
  simp [prob_choose_list]

theorem pyInt_thousandth (k : ℕ) : pyInt ((k : ℚ) / 1000 * 1000) = (k : ℤ) := by
  have h : ((k : ℚ) / 1000 * 1000) = (k : ℚ) := by
    field_simp
  rw [h]
  unfold pyInt
  rw [if_neg (not_lt.mpr (by positivity))]
  exact Int.floor_natCast k

theorem pcl_length {α : Type} (cs : List α) (ps : List ℚ) (hlen : cs.length = ps.length)
    (hmul : ∀ p ∈ ps, ∃ k : ℕ, p = (k : ℚ) / 1000) :
    ((prob_choose_list cs ps).length : ℚ) = ps.sum * 1000 := by
  induction cs generalizing ps with
  | nil =>
    cases ps with
    | nil => simp [pcl_nil]
    | cons p ps2 => simp at hlen
  | cons c cs ih =>
    cases ps with
    | nil => simp at hlen
    | cons p ps2 =>
      obtain ⟨k, hk⟩ := hmul p (List.mem_cons_self _ _)
      subst hk
      have hrest := ih ps2 (by simpa using hlen)
        (fun q hq => hmul q (List.mem_cons_of_mem _ hq))
      rw [pcl_cons, List.length_append, List.length_replicate, pyInt_thousandth,
        Int.toNat_natCast, List.sum_cons]
      push_cast
      rw [hrest]
      ring

theorem pcl_mem {α : Type} (cs : List α) (ps : List ℚ) (y : α)
    (hy : y ∈ prob_choose_list cs ps) : y ∈ cs := by
  unfold prob_choose_list at hy
  rw [List.mem_flatMap] at hy
  obtain ⟨cp, hcp, hy2⟩ := hy
  have hyc := List.eq_of_mem_replicate hy2
  subst hyc
  exact (List.of_mem_zip hcp).1

theorem pcl_count {α : Type} [DecidableEq α] (cs : List α) (ps : List ℚ)
    (hlen : cs.length = ps.length)
    (hmul : ∀ p ∈ ps, ∃ k : ℕ, p = (k : ℚ) / 1000)
    (hnd : cs.Nodup) :
    ∀ i (hi : i < cs.length) (hip : i < ps.length),
      (((prob_choose_list cs ps).count (cs.get ⟨i, hi⟩)) : ℚ) =
        ps.get ⟨i, hip⟩ * 1000 := by
  induction cs generalizing ps with
  | nil => intro i hi hip; simp at hi
  | cons c cs ih =>
    cases ps with
    | nil => simp at hlen
    | cons p ps2 =>
      intro i hi hip
      obtain ⟨k, hk⟩ := hmul p (List.mem_cons_self _ _)
      rw [pcl_cons, List.count_append]
      cases i with
      | zero =>
        have hzero : (prob_choose_list cs ps2).count c = 0 := by
          rw [List.count_eq_zero]
          intro hmem
          exact (List.nodup_cons.mp hnd).1 (pcl_mem cs ps2 c hmem)
        subst hk
        show (((List.replicate (pyInt ((k : ℚ) / 1000 * 1000)).toNat c).count c +
          (prob_choose_list cs ps2).count c : ℕ) : ℚ) = (k : ℚ) / 1000 * 1000
        rw [List.count_replicate_self, hzero, pyInt_thousandth, Int.toNat_natCast]
        push_cast
        ring
      | succ j =>
        have hj : j < cs.length := by simpa using hi
        have hjp : j < ps2.length := by simpa using hip
        show (((List.replicate (pyInt (p * 1000)).toNat c).count (cs.get ⟨j, hj⟩) +
          (prob_choose_list cs ps2).count (cs.get ⟨j, hj⟩) : ℕ) : ℚ) =
            ps2.get ⟨j, hjp⟩ * 1000
        have hne : ¬ (c = cs.get ⟨j, hj⟩) := by
          intro hceq
          exact (List.nodup_cons.mp hnd).1 (hceq ▸ List.get_mem cs j hj)
        rw [List.count_replicate, if_neg (by simpa using hne)]
        have := ih ps2 (by simpa using hlen)
          (fun q hq => hmul q (List.mem_cons_of_mem _ hq))
          (List.nodup_cons.mp hnd).2 j hj hjp
        simpa using this

theorem countP_range_getElem {α : Type} [DecidableEq α] (l : List α) (x : α) :
    (List.range l.length).countP (fun r => l[r]? = some x) = l.count x := by
  induction l with
  | nil => simp
  | cons a t ih =>
    rw [List.length_cons, List.range_succ_eq_map, List.countP_cons, List.countP_map]
    have hcomp : ((fun r => decide ((a :: t)[r]? = some x)) ∘ Nat.succ)
        = (fun r => decide (t[r]? = some x)) := by
      funext r
      simp
    rw [hcomp, ih, List.count_cons]
    by_cases h : a = x <;> simp [h]

theorem pcl_eq_nil {α : Type} (cs : List α) (ps : List ℚ)
    (hzero : ∀ p ∈ ps, pyInt (p * 1000) = 0) : prob_choose_list cs ps = [] := by
  induction cs generalizing ps with
  | nil => simp [pcl_nil]
  | cons c cs ih =>
    cases ps with
    | nil => simp [prob_choose_list]
    | cons p ps2 =>
      rw [pcl_cons, hzero p (List.mem_cons_self _ _)]
      simp [ih ps2 (fun q hq => hzero q (List.mem_cons_of_mem _ hq))]

/-- Claim C7: for candidate and probability lists of equal length whose
probabilities are exact multiples of 1/1000 and sum to 1 (candidates
distinct), the flat list has length 1000, candidate i occurs exactly
probs[i] * 1000 times in it, the returned draw indexes uniformly into that
flat list, and each candidate is drawn for exactly probs[i] * 1000 of the
1000 equiprobable values of the draw. -/
theorem prob_choose_exact_resolution {α : Type} [DecidableEq α]
    (choices : List α) (probs : List ℚ)
    (hlen : choices.length = probs.length)
    (hmul : ∀ p ∈ probs, ∃ k : ℕ, p = (k : ℚ) / 1000)
    (hsum : probs.sum = 1)
    (hnd : choices.Nodup) :
    (prob_choose_list choices probs).length = 1000 ∧
      (∀ i (hi : i < choices.length) (hip : i < probs.length),
        (((prob_choose_list choices probs).count (choices.get ⟨i, hi⟩)) : ℚ) =
          probs.get ⟨i, hip⟩ * 1000) ∧
      (∀ r : ℕ, prob_choose choices probs r =
        (prob_choose_list choices probs)[r % 1000]?) ∧
      (∀ i (hi : i < choices.length) (hip : i < probs.length),
        (((List.range 1000).countP
            (fun r => prob_choose choices probs r = some (choices.get ⟨i, hi⟩))) : ℚ) =
          probs.get ⟨i, hip⟩ * 1000) := by
  have hlen1000 : (prob_choose_list choices probs).length = 1000 := by
    have h := pcl_length choices probs hlen hmul
    rw [hsum] at h
    exact_mod_cast h
  have hdraw : ∀ r : ℕ, prob_choose choices probs r =
      (prob_choose_list choices probs)[r % 1000]? := by
    intro r
    simp only [prob_choose, hlen1000]
  refine ⟨hlen1000, pcl_count choices probs hlen hmul hnd, hdraw, ?_⟩
  intro i hi hip
  have hcongr : (List.range 1000).countP
      (fun r => prob_choose choices probs r = some (choices.get ⟨i, hi⟩)) =
        (List.range 1000).countP
          (fun r => (prob_choose_list choices probs)[r]? = some (choices.get ⟨i, hi⟩)) := by
    apply List.countP_congr
    intro r hr
    have hrlt : r < 1000 := List.mem_range.mp hr
    simp only [hdraw r, Nat.mod_eq_of_lt hrlt]
  rw [hcongr, ← hlen1000, countP_range_getElem]
  exact pcl_count choices probs hlen hmul hnd i hi hip

theorem prob_choose_exact_resolution_witness :
    (([(10 : ℤ), 20]).length = ([(1 : ℚ)/4, 3/4]).length ∧
      (∀ p ∈ [(1 : ℚ)/4, 3/4], ∃ k : ℕ, p = (k : ℚ) / 1000) ∧
      ([(1 : ℚ)/4, 3/4]).sum = 1 ∧ ([(10 : ℤ), 20]).Nodup) ∧
      ((prob_choose_list [(10 : ℤ), 20] [(1 : ℚ)/4, 3/4]).length = 1000 ∧
        (∀ i (hi : i < ([(10 : ℤ), 20]).length) (hip : i < ([(1 : ℚ)/4, 3/4]).length),
          (((prob_choose_list [(10 : ℤ), 20] [(1 : ℚ)/4, 3/4]).count
              (([(10 : ℤ), 20]).get ⟨i, hi⟩)) : ℚ) =
            ([(1 : ℚ)/4, 3/4]).get ⟨i, hip⟩ * 1000) ∧
        (∀ r : ℕ, prob_choose [(10 : ℤ), 20] [(1 : ℚ)/4, 3/4] r =
          (prob_choose_list [(10 : ℤ), 20] [(1 : ℚ)/4, 3/4])[r % 1000]?) ∧
        (∀ i (hi : i < ([(10 : ℤ), 20]).length) (hip : i < ([(1 : ℚ)/4, 3/4]).length),
          (((List.range 1000).countP
              (fun r => prob_choose [(10 : ℤ), 20] [(1 : ℚ)/4, 3/4] r =
                some (([(10 : ℤ), 20]).get ⟨i, hi⟩))) : ℚ) =
            ([(1 : ℚ)/4, 3/4]).get ⟨i, hip⟩ * 1000)) := by
  have hmul : ∀ p ∈ [(1 : ℚ)/4, 3/4], ∃ k : ℕ, p = (k : ℚ) / 1000 := by
    intro p hp
    rcases List.mem_cons.mp hp with h | h
    · exact ⟨250, by rw [h]; norm_num⟩
    · rcases List.mem_cons.mp h with h2 | h2
      · exact ⟨750, by rw [h2]; norm_num⟩
      · simp at h2
  exact ⟨⟨rfl, hmul, by norm_num, by decide⟩,
    prob_choose_exact_resolution [(10 : ℤ), 20] [(1 : ℚ)/4, 3/4] rfl hmul
      (by norm_num) (by decide)⟩

/-- Claim C10: when every probability replicates to zero copies at the
1/1000 granularity, prob_choose builds an empty flat list and produces no
candidate at all (random.choice raises IndexError on the empty list,
modelled as none). -/
theorem prob_choose_zero_replication_fails {α : Type} (choices : List α)
    (probs : List ℚ) (hne : choices ≠ []) (hlen : choices.length = probs.length)
    (hzero : ∀ p ∈ probs, pyInt (p * 1000) = 0) :
    prob_choose_list choices probs = [] ∧
      ∀ r : ℕ, prob_choose choices probs r = none := by
  have hnil := pcl_eq_nil choices probs hzero
  refine ⟨hnil, fun r => ?_⟩
  simp [prob_choose, hnil]

theorem prob_choose_zero_replication_fails_witness :
    (([3] : List ℤ) ≠ [] ∧ ([3] : List ℤ).length = ([(1 : ℚ)/2000]).length ∧
      ∀ p ∈ [(1 : ℚ)/2000], pyInt (p * 1000) = 0) ∧
      (prob_choose_list ([3] : List ℤ) [(1 : ℚ)/2000] = [] ∧
        ∀ r : ℕ, prob_choose ([3] : List ℤ) [(1 : ℚ)/2000] r = none) := by
  have hz : ∀ p ∈ [(1 : ℚ)/2000], pyInt (p * 1000) = 0 := by
    intro p hp
    simp only [List.mem_singleton] at hp
    subst hp
    unfold pyInt
    rw [show ((1 : ℚ)/2000 * 1000) = 1/2 by norm_num]
    rw [if_neg (by norm_num)]
    exact Int.floor_eq_zero_iff.mpr ⟨by norm_num, by norm_num⟩
  exact ⟨⟨by simp, rfl, hz⟩,
    prob_choose_zero_replication_fails [3] [(1 : ℚ)/2000] (by simp) rfl hz⟩

/-- Claim C1 counterexample: the lens-stack branch of gen_sheet writes whole
horizontal slabs.  With grid oz = 0, dz = 1, nz = 10, unit id 3, current
AE-id field constant 7, lens from znow = 0 of thickness 2, facies choice 4
and material counter 9, the voxel with vertical index 0 has AE-id 7 > 3 and
pre-paint material 0, yet the paint writes material 9 there: a voxel whose
AE-id exceeds the active unit id does not keep its previous value. -/
theorem gen_sheet_lens_paint_violates_ae_mask :
    (gen_sheet_lens_nodip_paint (V := ℕ) (fun v => v) 10 0 1 3 (fun _ => 7) 0 2 4 9
        (fun _ => 0) (fun _ => 0) (fun _ => 0) (fun _ => 0)).mat 0 = 9 ∧
      ¬ ((7 : ℤ) ≤ 3) ∧ (9 : ℤ) ≠ 0 := by
  have h0 : idx_z 0 1 0 = 0 := by
    unfold idx_z
    rw [show ((0 : ℚ) - 0) / 1 = 0 by norm_num]
    unfold np_around
    rw [Int.floor_zero]
    norm_num
  have h2 : idx_z 0 1 (0 + 2) = 2 := by
    unfold idx_z
    rw [show (((0 : ℚ) + 2) - 0) / 1 = 2 by norm_num]
    unfold np_around
    rw [show ⌊(2 : ℚ)⌋ = 2 from by norm_num]
    norm_num
  refine ⟨?_, by norm_num, by norm_num⟩
  simp only [gen_sheet_lens_nodip_paint]
  apply maskedWrite_pos
  refine ⟨?_, ?_⟩
  · rw [h0]
    norm_num
  · rw [h2]
    norm_num

/-- Claim C1 (amended): the single-ellipsoid flat-layer paint of gen_trough,
the main channel paint of gen_channel and the massive-bedding paint of
gen_sheet write material, facies, azimuth and dip at a voxel only if its
current AE-id is at most the active unit id and it lies geometrically inside
the object (for the massive sheet the object region is the unit mask
ae_array == ae_i[0] itself), and every other voxel keeps its previous value
in all four fields; the lens-stack paint of gen_sheet does not obey this
rule (see the counterexample). -/
theorem gen_paint_ae_mask_amended :
    (∀ (V : Type) (xc yc zc : V → ℝ) (ae_arr : V → ℤ) (ae0 : ℤ)
        (xnow ynow znow alpha a b c : ℝ) (fac_now cnt : ℤ) (angnow dipdraw : ℝ)
        (mat fac : V → ℤ) (azim dip : V → ℝ) (P : PaintResult V),
      P = gen_trough_paint xc yc zc ae_arr ae0 xnow ynow znow alpha a b c fac_now cnt
          angnow dipdraw mat fac azim dip →
      ∀ v : V,
        (¬ trough_select xc yc zc ae_arr ae0 xnow ynow znow alpha a b c v →
          P.mat v = mat v ∧ P.fac v = fac v ∧ P.azim v = azim v ∧ P.dip v = dip v) ∧
        (trough_select xc yc zc ae_arr ae0 xnow ynow znow alpha a b c v →
          P.mat v = cnt ∧ P.fac v = fac_now ∧ P.azim v = angnow ∧ P.dip v = dipdraw)) ∧
    (∀ (V : Type) (zi : V → ℕ) (ae_array : V → ℤ) (seq0 : ℤ) (D vx vy : V → ℝ)
        (finiteV : V → Prop) (iznow : ℤ) (dz z_ch_width z_ch_depth : ℝ) (fd : V → ℤ)
        (dv : ℝ) (cnt : ℤ) (mat fac : V → ℤ) (azim dip : V → ℝ) (P : PaintResult V),
      P = gen_channel_paint zi ae_array seq0 D vx vy finiteV iznow dz z_ch_width
          z_ch_depth fd dv cnt mat fac azim dip →
      ∀ v : V,
        (¬ (channel_in_channel zi D iznow dz z_ch_width z_ch_depth v ∧
              ae_array v ≤ seq0) →
          P.mat v = mat v ∧ P.fac v = fac v ∧ P.azim v = azim v ∧ P.dip v = dip v) ∧
        (channel_mask zi ae_array seq0 D finiteV iznow dz z_ch_width z_ch_depth v →
          P.mat v = cnt ∧ P.fac v = fd v ∧ P.azim v = channel_azim2d vx vy v ∧
            P.dip v = dv)) ∧
    (∀ (V : Type) (ae_array : V → ℤ) (ae0 : ℤ) (fac_choice cnt : ℤ)
        (mat fac : V → ℤ) (azim dip : V → ℝ) (P : PaintResult V),
      P = gen_sheet_massive_paint ae_array ae0 fac_choice cnt mat fac azim dip →
      ∀ v : V,
        (¬ (ae_array v = ae0 ∧ ae_array v ≤ ae0) →
          P.mat v = mat v ∧ P.fac v = fac v ∧ P.azim v = azim v ∧ P.dip v = dip v) ∧
        (ae_array v = ae0 →
          ae_array v ≤ ae0 ∧ P.mat v = cnt ∧ P.fac v = fac_choice ∧
            P.azim v = 0 ∧ P.dip v = 0)) := by
  refine ⟨?_, ?_, ?_⟩
  · intro V xc yc zc ae_arr ae0 xnow ynow znow alpha a b c fac_now cnt angnow dipdraw
      mat fac azim dip P hP v
    subst hP
    simp only [gen_trough_paint]
    constructor
    · intro h
      exact ⟨maskedWrite_neg _ _ h, maskedWrite_neg _ _ h,
        maskedWrite_neg _ _ h, maskedWrite_neg _ _ h⟩
    · intro h
      exact ⟨maskedWrite_pos _ _ h, maskedWrite_pos _ _ h,
        maskedWrite_pos _ _ h, maskedWrite_pos _ _ h⟩
  · intro V zi ae_array seq0 D vx vy finiteV iznow dz z_ch_width z_ch_depth fd dv cnt
      mat fac azim dip P hP v
    subst hP
    simp only [gen_channel_paint]
    constructor
    · intro h
      have hm : ¬ channel_mask zi ae_array seq0 D finiteV iznow dz z_ch_width
          z_ch_depth v := fun hmask => h ⟨hmask.1, hmask.2.2⟩
      exact ⟨maskedWrite_neg _ _ hm, maskedWrite_neg _ _ hm,
        maskedWrite_neg _ _ hm, maskedWrite_neg _ _ hm⟩
    · intro h
      exact ⟨maskedWrite_pos _ _ h, maskedWrite_pos _ _ h,
        maskedWrite_pos _ _ h, maskedWrite_pos _ _ h⟩
  · intro V ae_array ae0 fac_choice cnt mat fac azim dip P hP v
    subst hP
    simp only [gen_sheet_massive_paint]
    constructor
    · intro h
      have hm : ¬ (ae_array v = ae0) := fun heq => h ⟨heq, le_of_eq heq⟩
      exact ⟨maskedWrite_neg _ _ hm, maskedWrite_neg _ _ hm,
        maskedWrite_neg _ _ hm, maskedWrite_neg _ _ hm⟩
    · intro h
      exact ⟨le_of_eq h, maskedWrite_pos _ _ h, maskedWrite_pos _ _ h,
        maskedWrite_pos _ _ h, maskedWrite_pos _ _ h⟩

theorem gen_paint_ae_mask_amended_witness :
    (gen_trough_paint (V := Unit) (fun _ => 0) (fun _ => 0) (fun _ => 0)
        (fun _ => (5 : ℤ)) 0 0 0 0 0 1 1 1 4 3 0 0
        (fun _ => 1) (fun _ => 2) (fun _ => 0) (fun _ => 0)).mat () = 1 ∧
      (gen_channel_paint (V := Unit) (fun _ => 0) (fun _ => (5 : ℤ)) 0 (fun _ => 0)
          (fun _ => 0) (fun _ => 0) (fun _ => True) 0 1 1 1 (fun _ => 4) 0 3
          (fun _ => 1) (fun _ => 2) (fun _ => 0) (fun _ => 0)).mat () = 1 ∧
      (gen_sheet_massive_paint (V := Unit) (fun _ => (5 : ℤ)) 0 4 3
          (fun _ => 1) (fun _ => 2) (fun _ => 0) (fun _ => 0)).mat () = 1 := by
  refine ⟨?_, ?_, ?_⟩
  · exact ((gen_paint_ae_mask_amended.1 Unit (fun _ => 0) (fun _ => 0) (fun _ => 0)
      (fun _ => (5 : ℤ)) 0 0 0 0 0 1 1 1 4 3 0 0 (fun _ => 1) (fun _ => 2)
      (fun _ => 0) (fun _ => 0) _ rfl ()).1
      (fun hsel => absurd hsel.2 (by norm_num))).1
  · exact ((gen_paint_ae_mask_amended.2.1 Unit (fun _ => 0) (fun _ => (5 : ℤ)) 0
      (fun _ => 0) (fun _ => 0) (fun _ => 0) (fun _ => True) 0 1 1 1 (fun _ => 4) 0 3
      (fun _ => 1) (fun _ => 2) (fun _ => 0) (fun _ => 0) _ rfl ()).1
      (fun hsel => absurd hsel.2 (by norm_num))).1
  · exact ((gen_paint_ae_mask_amended.2.2 Unit (fun _ => (5 : ℤ)) 0 4 3 (fun _ => 1)
      (fun _ => 2) (fun _ => 0) (fun _ => 0) _ rfl ()).1
      (fun hsel => absurd hsel.1 (by norm_num))).1

theorem nest_fix_one_cell_z_overshoot_witness :
    (0 + 4 ≤ 4 ∧ 0 + 4 ≤ 4 ∧ 1 + 4 = 4 + 1 ∧ 1 ≤ 1 ∧ 1 ≤ 4) ∧
      (slice_shape 4 4 4 (nest_bounds 0 0 1 4 4 4) ≠ (4, 4, 4) ∧
        nest_fix 4 4 4 (nest_bounds 0 0 1 4 4 4) 4 4 4 =
          { ix1 := (0 : ℤ), ix2 := (0 : ℤ) + (4 : ℤ), iy1 := (0 : ℤ),
            iy2 := (0 : ℤ) + (4 : ℤ), iz1 := (1 : ℤ) - 1, iz2 := (1 : ℤ) + (4 : ℤ) - 1 } ∧
        nest_insert_ok 4 4 4 0 0 1 4 4 4 = true) :=
  ⟨by norm_num,
    nest_fix_one_cell_z_overshoot 4 4 4 0 0 1 4 4 4 (by norm_num) (by norm_num)
      (by norm_num) (by norm_num) (by norm_num)⟩

end HyVR
